import Mathlib

/-!
Verification of the speakable-time decomposition-and-formatting engine.

The Rust sources are shallowly embedded: the duration accumulator is an
Int counted in whole seconds (chrono Duration arithmetic in this crate
only ever constructs whole-second values), i64 division is Int.tdiv
(Rust division truncates toward zero), fallible code returns Except, and
the mutable state-collection vector is explicit List state passing.
-/

namespace SpeakableTime

/-- Time boundaries, declared finest first exactly as in src/time_boundary.rs
(the derived Ord therefore orders Second < Minute < ... < Year). -/
inductive TimeBoundary where
  | Second
  | Minute
  | Hour
  | Day
  | Week
  | Month
  | Year
  deriving DecidableEq, Repr

/-- Position of a boundary in its declaration order; Rust's derived Ord on
TimeBoundary compares by this index. -/
def TimeBoundary.index : TimeBoundary → Nat
  | .Second => 0
  | .Minute => 1
  | .Hour => 2
  | .Day => 3
  | .Week => 4
  | .Month => 5
  | .Year => 6

/-- TimeBoundary::all, yielding the seven units most significant first. -/
def TimeBoundary.all : List TimeBoundary :=
  [.Year, .Month, .Week, .Day, .Hour, .Minute, .Second]

/-- Modelled from the spec: the YEAR constant (fixed-length approximation,
365 days of seconds) is referenced by src/src/approximate/mod.rs but its
defining module is not among the provided sources; spec section 3 fixes
year = 365 d. -/
def YEAR : Int := 365 * 86400

/-- Modelled from the spec: the MONTH constant (30 days of seconds), same
provenance as YEAR; spec section 3 fixes month = 30 d. -/
def MONTH : Int := 30 * 86400

/-- Modelled from the spec: the WEEK constant (7 days of seconds), same
provenance as YEAR; spec section 3 fixes week = 7 d. -/
def WEEK : Int := 7 * 86400

/-- The number of whole seconds one unit of the boundary spans. Year and
Month come from the YEAR and MONTH constants used in match_relative; Week,
Day, Hour and Minute come from the chrono Duration::num_weeks/num_days/
num_hours/num_minutes accessors (truncating division of total seconds by
604800, 86400, 3600 and 60, matching spec section 3 unit lengths). -/
def TimeBoundary.unitLength : TimeBoundary → Int
  | .Year => YEAR
  | .Month => MONTH
  | .Week => 7 * 86400
  | .Day => 86400
  | .Hour => 3600
  | .Minute => 60
  | .Second => 1

/-- One of Morning, Afternoon, Evening or Night (enum ApproximateTime in
src/src/approximate/mod.rs). -/
inductive ApproximateTime where
  | Morning
  | Afternoon
  | Evening
  | Night
  deriving DecidableEq, Repr

/-- Month enum from src/src/enums/mod.rs. -/
inductive Month where
  | January
  | February
  | March
  | April
  | May
  | June
  | July
  | August
  | September
  | October
  | November
  | December
  deriving DecidableEq, Repr

/-- Weekday enum from src/src/enums/mod.rs, starting with Sunday. -/
inductive Weekday where
  | Sunday
  | Monday
  | Tuesday
  | Wednesday
  | Thursday
  | Friday
  | Saturday
  deriving DecidableEq, Repr

/-- Modelled from the spec: a calendar date (chrono NaiveDate is an external
collaborator; the core only needs the component accessors, spec section 6). -/
structure NaiveDate where
  year : Nat
  month : Nat
  day : Nat
  deriving DecidableEq, Repr

/-- Modelled from the spec: a time of day (chrono NaiveTime is an external
collaborator; the core only needs the component accessors, spec section 6). -/
structure NaiveTime where
  hour : Nat
  minute : Nat
  second : Nat
  deriving DecidableEq, Repr

/-- Modelled from the spec: a local timestamp carrying its date and time
parts (chrono DateTime of Local is an external collaborator). The embedding
assumes a fixed utc offset, so signed differences are civil-calendar
differences in whole seconds. -/
structure LocalDateTime where
  date : NaiveDate
  time : NaiveTime
  deriving DecidableEq, Repr

/-- Modelled from the spec: days from civil date relative to 1970-01-01
(standard proleptic-Gregorian day-count algorithm), standing in for the
chrono calendar collaborator. -/
def NaiveDate.daysFromCivil (d : NaiveDate) : Int :=
  let y := if d.month ≤ 2 then d.year - 1 else d.year
  let era := y / 400
  let yoe := y % 400
  let mp := (d.month + 9) % 12
  let doy := (153 * mp + 2) / 5 + (d.day - 1)
  let doe := yoe * 365 + yoe / 4 - yoe / 100 + doy
  ((era * 146097 + doe : Nat) : Int) - 719468

/-- Modelled from the spec: a timestamp as whole seconds since the epoch,
standing in for chrono instant arithmetic. -/
def LocalDateTime.toSeconds (dt : LocalDateTime) : Int :=
  dt.date.daysFromCivil * 86400 + dt.time.hour * 3600 + dt.time.minute * 60 + dt.time.second

/-- The signed chrono difference dt1 - dt2, in whole seconds. -/
def signedDuration (dt1 dt2 : LocalDateTime) : Int :=
  dt1.toSeconds - dt2.toSeconds

/-- crate::absolute_duration from src/src/lib.rs: (dt1 - dt2).abs(). -/
def absoluteDuration (dt1 dt2 : LocalDateTime) : Int :=
  |signedDuration dt1 dt2|

/-- Modelled from the spec: the weekday of a date (chrono accessor;
1970-01-01 was a Thursday). -/
def NaiveDate.weekday (d : NaiveDate) : Weekday :=
  match ((d.daysFromCivil + 4).emod 7).toNat with
  | 0 => .Sunday
  | 1 => .Monday
  | 2 => .Tuesday
  | 3 => .Wednesday
  | 4 => .Thursday
  | 5 => .Friday
  | _ => .Saturday

/-- Into Month for u32 from src/src/enums/mod.rs (zero-based month index,
as produced by the chrono month0 accessor). Indices past December are
unreachable for well-formed dates. -/
def Month.ofIndex0 : Nat → Month
  | 0 => .January
  | 1 => .February
  | 2 => .March
  | 3 => .April
  | 4 => .May
  | 5 => .June
  | 6 => .July
  | 7 => .August
  | 8 => .September
  | 9 => .October
  | 10 => .November
  | _ => .December

/-- enum ApproximateState from src/src/approximate/mod.rs. The
StateCollection wrapper around Vec of ApproximateState is embedded as a
plain List, push appending on the right. -/
inductive ApproximateState where
  | Value (boundary : TimeBoundary) (count : Int)
  | InPast (b : Bool)
  | ApproximateTime (t : ApproximateTime)
  | DayName (w : Weekday)
  | MonthName (m : Month)
  | HourShorthand (s : String)
  | WithDate (d : NaiveDate)
  | WithTime (t : NaiveTime)
  deriving DecidableEq, Repr

/-- enum ApproximateFilter from src/src/approximate/mod.rs. The usize
count of TopRounds variants is a Nat, the i64 bound of RoundWithBound is
an Int. -/
inductive ApproximateFilter where
  | TopRounds (count : Nat)
  | TopRoundsMaxRelative (count : Nat) (relative : TimeBoundary)
  | RoundWithBound (relative : TimeBoundary) (upto : Int)
  | Round (relative : TimeBoundary)
  | DayNameWithinWeek
  | MonthNameWithinYear
  | HourShorthand
  | ApproximateTime
  | Relative
  deriving DecidableEq, Repr

/-- match_relative from src/src/approximate/mod.rs: divide the duration by
the boundary's unit length (truncating i64 division); on success return the
reduced duration and the emitted Value state, otherwise return the duration
unchanged. -/
def matchRelative (duration : Int) (relative : TimeBoundary) (upto : Option Int) :
    Int × Option ApproximateState :=
  let count := duration.tdiv relative.unitLength
  let result : Option (Int × Int) :=
    if 0 < count then
      match upto with
      | none => some (count, count * relative.unitLength)
      | some u => if count ≤ u then some (count, count * relative.unitLength) else none
    else
      none
  match result with
  | some r => (duration - r.2, some (.Value relative r.1))
  | none => (duration, none)

/-- The TopRounds inner loop of Approximator::difference: walk the unit
list, checking added against count before each unit, and push the states
match_relative emits. -/
def topRoundsLoop (count : Nat) :
    List TimeBoundary → Nat → Int → List ApproximateState → Int × List ApproximateState
  | [], _, duration, state => (duration, state)
  | relative :: rest, added, duration, state =>
    if count ≤ added then
      (duration, state)
    else
      match matchRelative duration relative none with
      | (duration', some newState) =>
        topRoundsLoop count rest (added + 1) duration' (state ++ [newState])
      | (duration', none) =>
        topRoundsLoop count rest added duration' state

/-- The TopRoundsMaxRelative inner loop of Approximator::difference: as
topRoundsLoop, but a unit strictly coarser than the cap (relative < cur in
the derived Ord) is skipped before the consumption rule runs. -/
def topRoundsMaxLoop (count : Nat) (relative : TimeBoundary) :
    List TimeBoundary → Nat → Int → List ApproximateState → Int × List ApproximateState
  | [], _, duration, state => (duration, state)
  | cur :: rest, added, duration, state =>
    if count ≤ added then
      (duration, state)
    else if relative.index < cur.index then
      topRoundsMaxLoop count relative rest added duration state
    else
      match matchRelative duration cur none with
      | (duration', some newState) =>
        topRoundsMaxLoop count relative rest (added + 1) duration' (state ++ [newState])
      | (duration', none) =>
        topRoundsMaxLoop count relative rest added duration' state

/-- One iteration of the filter loop of Approximator::difference (state is
the accumulated collection, duration the shared mutable accumulator). -/
def filterStep (dt against : LocalDateTime) :
    Int × List ApproximateState → ApproximateFilter → Int × List ApproximateState
  | (duration, state), f =>
    match f with
    | .TopRounds count => topRoundsLoop count TimeBoundary.all 0 duration state
    | .TopRoundsMaxRelative count relative =>
      topRoundsMaxLoop count relative TimeBoundary.all 0 duration state
    | .Relative =>
      (duration, state ++ [.InPast (decide (0 < against.toSeconds - dt.toSeconds))])
    | .ApproximateTime =>
      let hour := dt.time.hour
      let approxTime :=
        if hour < 6 then ApproximateTime.Night
        else if hour < 12 then ApproximateTime.Morning
        else if hour < 18 then ApproximateTime.Afternoon
        else ApproximateTime.Evening
      (duration, state ++ [.ApproximateTime approxTime])
    | .HourShorthand =>
      if dt.time.hour = 0 then (duration, state ++ [.HourShorthand "midnight"])
      else if dt.time.hour = 12 then (duration, state ++ [.HourShorthand "noon"])
      else (duration, state)
    | .MonthNameWithinYear =>
      if duration < YEAR then (duration, state ++ [.MonthName (Month.ofIndex0 (dt.date.month - 1))])
      else (duration, state)
    | .DayNameWithinWeek =>
      if duration < WEEK then (duration, state ++ [.DayName dt.date.weekday])
      else (duration, state)
    | .Round relative =>
      match matchRelative duration relative none with
      | (duration', some newState) => (duration', state ++ [newState])
      | (duration', none) => (duration', state)
    | .RoundWithBound relative upto =>
      match matchRelative duration relative (some upto) with
      | (duration', some newState) => (duration', state ++ [newState])
      | (duration', none) => (duration', state)

/-- The filter loop of Approximator::difference, folded over the caller's
filter list from an initial accumulator and collection. -/
def runFilters (dt against : LocalDateTime) (filters : List ApproximateFilter)
    (init : Int × List ApproximateState) : Int × List ApproximateState :=
  filters.foldl (filterStep dt against) init

/-- Approximator::difference, returning the final duration accumulator
together with the accumulated state collection (the Rust function keeps the
collection and drops the accumulator). -/
def differenceFull (filters : List ApproximateFilter) (dt against : LocalDateTime) :
    Int × List ApproximateState :=
  runFilters dt against filters
    (absoluteDuration dt against, [.WithDate dt.date, .WithTime dt.time])

/-- The state collection built by Approximator::difference. -/
def difference (filters : List ApproximateFilter) (dt against : LocalDateTime) :
    List ApproximateState :=
  (differenceFull filters dt against).2

/-- enum Words from src/src/enums/words.rs: the closed translator
vocabulary (the u8 suffix payload is a Nat). -/
inductive Words where
  | January
  | February
  | March
  | April
  | May
  | June
  | July
  | August
  | September
  | October
  | November
  | December
  | Suffix (n : Nat)
  | Noon
  | Midnight
  | PM
  | AM
  | A
  | In
  | An
  | And
  | FromNow
  | At
  | Ago
  | Last
  | Year
  | Week
  | Month
  | Day
  | Hour
  | Minute
  | Second
  | YearPlural
  | WeekPlural
  | MonthPlural
  | DayPlural
  | HourPlural
  | MinutePlural
  | SecondPlural
  | Yesterday
  | Today
  | Tomorrow
  | Sunday
  | Monday
  | Tuesday
  | Wednesday
  | Thursday
  | Friday
  | Saturday
  deriving DecidableEq, Repr

/-- Words::plural from src/src/enums/words.rs. -/
def Words.plural : Words → Words
  | .Year => .YearPlural
  | .Week => .WeekPlural
  | .Month => .MonthPlural
  | .Day => .DayPlural
  | .Hour => .HourPlural
  | .Minute => .MinutePlural
  | .Second => .SecondPlural
  | w => w

/-- The Display implementation for Words from src/src/enums/words.rs. -/
def Words.display : Words → String
  | .January => "january"
  | .February => "february"
  | .March => "march"
  | .April => "april"
  | .May => "may"
  | .June => "june"
  | .July => "july"
  | .August => "august"
  | .September => "september"
  | .October => "october"
  | .November => "november"
  | .December => "december"
  | .Suffix n => "suffix_" ++ toString n
  | .Noon => "noon"
  | .Midnight => "midnight"
  | .PM => "pm"
  | .AM => "am"
  | .A => "a"
  | .In => "in"
  | .An => "an"
  | .And => "and"
  | .FromNow => "from now"
  | .At => "at"
  | .Ago => "ago"
  | .Last => "last"
  | .Year => "year"
  | .Week => "week"
  | .Month => "month"
  | .Day => "day"
  | .Hour => "hour"
  | .Minute => "minute"
  | .Second => "second"
  | .YearPlural => "years"
  | .WeekPlural => "weeks"
  | .MonthPlural => "months"
  | .DayPlural => "days"
  | .HourPlural => "hours"
  | .MinutePlural => "minutes"
  | .SecondPlural => "seconds"
  | .Yesterday => "yesterday"
  | .Today => "today"
  | .Tomorrow => "tomorrow"
  | .Sunday => "sunday"
  | .Monday => "monday"
  | .Tuesday => "tuesday"
  | .Wednesday => "wednesday"
  | .Thursday => "thursday"
  | .Friday => "friday"
  | .Saturday => "saturday"

/-- The FromStr implementation for Words from src/src/enums/words.rs;
a string outside the vocabulary is Err, embedded as none. -/
def Words.fromStr (s : String) : Option Words :=
  if s = "january" then some .January
  else if s = "february" then some .February
  else if s = "march" then some .March
  else if s = "april" then some .April
  else if s = "may" then some .May
  else if s = "june" then some .June
  else if s = "july" then some .July
  else if s = "august" then some .August
  else if s = "september" then some .September
  else if s = "october" then some .October
  else if s = "november" then some .November
  else if s = "december" then some .December
  else if s = "suffix_0" then some (.Suffix 0)
  else if s = "suffix_1" then some (.Suffix 1)
  else if s = "suffix_2" then some (.Suffix 2)
  else if s = "suffix_3" then some (.Suffix 3)
  else if s = "suffix_4" then some (.Suffix 4)
  else if s = "suffix_5" then some (.Suffix 5)
  else if s = "suffix_6" then some (.Suffix 6)
  else if s = "suffix_7" then some (.Suffix 7)
  else if s = "suffix_8" then some (.Suffix 8)
  else if s = "suffix_9" then some (.Suffix 9)
  else if s = "noon" then some .Noon
  else if s = "midnight" then some .Midnight
  else if s = "pm" then some .PM
  else if s = "am" then some .AM
  else if s = "a" then some .A
  else if s = "in" then some .In
  else if s = "an" then some .An
  else if s = "and" then some .And
  else if s = "from now" then some .FromNow
  else if s = "at" then some .At
  else if s = "ago" then some .Ago
  else if s = "last" then some .Last
  else if s = "year" then some .Year
  else if s = "week" then some .Week
  else if s = "month" then some .Month
  else if s = "day" then some .Day
  else if s = "hour" then some .Hour
  else if s = "minute" then some .Minute
  else if s = "second" then some .Second
  else if s = "years" then some .YearPlural
  else if s = "weeks" then some .WeekPlural
  else if s = "months" then some .MonthPlural
  else if s = "days" then some .DayPlural
  else if s = "hours" then some .HourPlural
  else if s = "minutes" then some .MinutePlural
  else if s = "seconds" then some .SecondPlural
  else if s = "yesterday" then some .Yesterday
  else if s = "today" then some .Today
  else if s = "tomorrow" then some .Tomorrow
  else if s = "sunday" then some .Sunday
  else if s = "monday" then some .Monday
  else if s = "tuesday" then some .Tuesday
  else if s = "wednesday" then some .Wednesday
  else if s = "thursday" then some .Thursday
  else if s = "friday" then some .Friday
  else if s = "saturday" then some .Saturday
  else none

/-- Into Words for TimeBoundary from src/src/time_boundary.rs. -/
def TimeBoundary.toWords : TimeBoundary → Words
  | .Second => .Second
  | .Minute => .Minute
  | .Hour => .Hour
  | .Day => .Day
  | .Week => .Week
  | .Month => .Month
  | .Year => .Year

/-- The DEFAULT_TRANSLATION English table from src/src/translator/mod.rs,
embedded as the lookup function of the underlying HashMap (all inserted
keys are distinct, so last-write-wins insertion is plain lookup). -/
def defaultTranslation : Words → Option String
  | .January => some "January"
  | .February => some "February"
  | .March => some "March"
  | .April => some "April"
  | .May => some "May"
  | .June => some "June"
  | .July => some "July"
  | .August => some "August"
  | .September => some "September"
  | .October => some "October"
  | .November => some "November"
  | .December => some "December"
  | .Suffix 0 => some "th"
  | .Suffix 1 => some "st"
  | .Suffix 2 => some "nd"
  | .Suffix 3 => some "rd"
  | .Suffix 4 => some "th"
  | .Suffix 5 => some "th"
  | .Suffix 6 => some "th"
  | .Suffix 7 => some "th"
  | .Suffix 8 => some "th"
  | .Suffix 9 => some "th"
  | .Suffix _ => none
  | .Noon => some "Noon"
  | .Midnight => some "Midnight"
  | .PM => some "PM"
  | .AM => some "AM"
  | .A => some "a"
  | .In => some "in"
  | .An => some "an"
  | .At => some "at"
  | .Ago => some "ago"
  | .Last => some "last"
  | .Year => some "year"
  | .Week => some "week"
  | .Month => some "month"
  | .Day => some "day"
  | .Hour => some "hour"
  | .Minute => some "minute"
  | .Second => some "second"
  | .YearPlural => some "years"
  | .WeekPlural => some "weeks"
  | .MonthPlural => some "months"
  | .DayPlural => some "days"
  | .HourPlural => some "hours"
  | .MinutePlural => some "minutes"
  | .SecondPlural => some "seconds"
  | .Yesterday => some "Yesterday"
  | .Today => some "Today"
  | .Tomorrow => some "Tomorrow"
  | .Sunday => some "Sunday"
  | .Monday => some "Monday"
  | .Tuesday => some "Tuesday"
  | .Wednesday => some "Wednesday"
  | .Thursday => some "Thursday"
  | .Friday => some "Friday"
  | .Saturday => some "Saturday"
  | .And => some "and"
  | .FromNow => some "from now"

/-- Rust str::trim, as used by CoarseRoundFormat::format: drop leading and
trailing whitespace characters. -/
def rustTrim (s : String) : String :=
  ⟨List.reverse (List.dropWhile Char.isWhitespace
    (List.reverse (List.dropWhile Char.isWhitespace s.data)))⟩

/-- CoarseRoundFormat::add from src/src/approximate/format_generator/formats.rs:
retain only the Value and InPast entries of the ingested collection, in
order. -/
def coarseAdd (states : List ApproximateState) : List ApproximateState :=
  states.filter fun st =>
    match st with
    | .Value _ _ => true
    | .InPast _ => true
    | _ => false

/-- The string a Value entry at buffer index x contributes inside the
CoarseRoundFormat::format loop: count, space, the percent-braced unit word
(pluralized when the count exceeds one), then a comma variant exactly when
the buffer has at least two entries and x is below the buffer length minus
two. -/
def coarseItem (len x : Nat) (relative : TimeBoundary) (time : Int) : String :=
  let w := if 1 < time then relative.toWords.plural else relative.toWords
  if 2 ≤ len ∧ x < len - 2 then
    toString time ++ " %\x7b" ++ w.display ++ "\x7d, "
  else
    toString time ++ " %\x7b" ++ w.display ++ "\x7d "

/-- The enumerated loop of CoarseRoundFormat::format: x is the enumeration
index, inPast the last InPast seen, s the flushed output and last the
pending item buffer; the loop returns the three accumulators at exit. -/
def coarseLoop (len : Nat) :
    List ApproximateState → Nat → Option Bool → String → String →
      Option Bool × String × String
  | [], _, inPast, s, last => (inPast, s, last)
  | st :: rest, x, inPast, s, last =>
    match st with
    | .InPast past => coarseLoop len rest (x + 1) (some past) s last
    | .Value relative time =>
      let s := if last ≠ "" then s ++ last else s
      coarseLoop len rest (x + 1) inPast s (coarseItem len x relative time)
    | _ => coarseLoop len rest (x + 1) inPast s last

/-- CoarseRoundFormat::format from
src/src/approximate/format_generator/formats.rs, over the retained buffer:
run the loop, flush the pending item (trimmed, prefixed by the and-word
when earlier output exists), then append the past or future suffix. -/
def coarseFormat (formats : List ApproximateState) : String :=
  let r := coarseLoop formats.length formats 0 none "" ""
  let s :=
    if r.2.2 ≠ "" then
      if r.2.1 = "" then r.2.1 ++ rustTrim r.2.2
      else r.2.1 ++ ("%\x7band\x7d " ++ rustTrim r.2.2)
    else r.2.1
  match r.1 with
  | some true => s ++ " %\x7bago\x7d"
  | some false => s ++ " %\x7bfrom now\x7d"
  | none => s

/-- The full coarse pipeline StateFormatter::format: ingest the collection
through CoarseRoundFormat::add, then render. -/
def coarseRender (states : List ApproximateState) : String :=
  coarseFormat (coarseAdd states)

/-- The open-brace character, written by code point to keep it out of
string literals. -/
def lbrace : Char := Char.ofNat 123

/-- The close-brace character, written by code point. -/
def rbrace : Char := Char.ofNat 125

/-- The scanner loop of Translator::format from src/src/translator/mod.rs:
a left-to-right character scan with the in-match and in-brace flags, the
output buffer s and the capture buffer cap. -/
def formatLoop (map : Words → Option String) :
    List Char → Bool → Bool → String → String → Except String String
  | [], inMatch, inBrace, s, _ =>
    if inBrace then .error "Invalid format (unclosed brace)"
    else if inMatch then .error "Invalid format (incomplete match)"
    else .ok s
  | c :: rest, inMatch, inBrace, s, cap =>
    if c = '%' then
      if inMatch ∧ ¬inBrace then
        formatLoop map rest false inBrace (s.push c) cap
      else if inBrace ∨ inMatch then
        .error "Invalid format (format attempted within format)"
      else
        formatLoop map rest true false s cap
    else if c = lbrace then
      if ¬inMatch then formatLoop map rest inMatch inBrace (s.push c) cap
      else if inBrace then .error "Invalid format (open brace attempted within open brace)"
      else formatLoop map rest inMatch true s cap
    else if c = rbrace then
      if ¬inMatch then formatLoop map rest inMatch inBrace (s.push c) cap
      else if ¬inBrace then .error "Invalid format (close brace attempted outside open brace)"
      else
        let s :=
          match Words.fromStr cap with
          | some word => s ++ ((map word).getD "")
          | none => s
        formatLoop map rest false false s ""
    else
      if inBrace ∧ inMatch then formatLoop map rest inMatch inBrace s (cap.push c)
      else formatLoop map rest inMatch inBrace (s.push c) cap

/-- Translator::format: scan the whole template with both flags clear and
empty buffers. -/
def Translator.format (map : Words → Option String) (format : String) :
    Except String String :=
  formatLoop map format.data false false "" ""

/-- The number of original seconds a state collection accounts for: each
Value entry contributes its count times its boundary's unit length. -/
def valueSum : List ApproximateState → Int
  | [] => 0
  | .Value b c :: rest => c * b.unitLength + valueSum rest
  | _ :: rest => valueSum rest

theorem valueSum_append (a b : List ApproximateState) :
    valueSum (a ++ b) = valueSum a + valueSum b := by
  induction a with
  | nil => simp [valueSum]
  | cons st rest ih =>
    cases st <;> simp [valueSum, ih, add_assoc]

theorem matchRelative_none (d : Int) (b : TimeBoundary) :
    matchRelative d b none =
      if 0 < d.tdiv b.unitLength then
        (d - d.tdiv b.unitLength * b.unitLength, some (.Value b (d.tdiv b.unitLength)))
      else (d, none) := by
  by_cases h : 0 < d.tdiv b.unitLength <;> simp [matchRelative, h]

theorem matchRelative_some (d : Int) (b : TimeBoundary) (u : Int) :
    matchRelative d b (some u) =
      if 0 < d.tdiv b.unitLength ∧ d.tdiv b.unitLength ≤ u then
        (d - d.tdiv b.unitLength * b.unitLength, some (.Value b (d.tdiv b.unitLength)))
      else (d, none) := by
  by_cases h1 : 0 < d.tdiv b.unitLength <;> by_cases h2 : d.tdiv b.unitLength ≤ u <;>
    simp [matchRelative, h1, h2]

theorem filterStep_round (dt against : LocalDateTime) (d : Int)
    (acc : List ApproximateState) (b : TimeBoundary) :
    filterStep dt against (d, acc) (.Round b) =
      if 0 < d.tdiv b.unitLength then
        (d - d.tdiv b.unitLength * b.unitLength,
         acc ++ [.Value b (d.tdiv b.unitLength)])
      else (d, acc) := by
  by_cases h : 0 < d.tdiv b.unitLength <;>
    simp [filterStep, matchRelative_none, h]

theorem runFilters_round_invariant (dt against : LocalDateTime)
    (bs : List TimeBoundary) (d : Int) (acc : List ApproximateState) :
    valueSum (runFilters dt against (bs.map ApproximateFilter.Round) (d, acc)).2
        + (runFilters dt against (bs.map ApproximateFilter.Round) (d, acc)).1
      = valueSum acc + d := by
  induction bs generalizing d acc with
  | nil => simp [runFilters]
  | cons b rest ih =>
    have hstep :
        runFilters dt against ((b :: rest).map ApproximateFilter.Round) (d, acc)
          = runFilters dt against (rest.map ApproximateFilter.Round)
              (filterStep dt against (d, acc) (.Round b)) := by
      simp [runFilters]
    rw [hstep, filterStep_round]
    split
    · rw [ih, valueSum_append]
      simp only [valueSum]
      ring
    · exact ih d acc

/-- C1: a pipeline of Round filters conserves the duration: after running
any list of Round filters from any intermediate accumulator and collection
(hence at every step of the filter loop), the sum over emitted Value states
of count times unit length plus the remaining duration accumulator is
unchanged; in particular, for the collection built by
Approximator::difference it equals the original absolute duration between
the two timestamps. -/
theorem round_filters_conserve_duration (dt against : LocalDateTime)
    (bs : List TimeBoundary) (d : Int) (acc : List ApproximateState) :
    (valueSum (runFilters dt against (bs.map ApproximateFilter.Round) (d, acc)).2
        + (runFilters dt against (bs.map ApproximateFilter.Round) (d, acc)).1
      = valueSum acc + d)
    ∧ (valueSum (differenceFull (bs.map ApproximateFilter.Round) dt against).2
        + (differenceFull (bs.map ApproximateFilter.Round) dt against).1
      = absoluteDuration dt against) := by
  refine ⟨runFilters_round_invariant dt against bs d acc, ?_⟩
  have h := runFilters_round_invariant dt against bs (absoluteDuration dt against)
    [.WithDate dt.date, .WithTime dt.time]
  simpa [differenceFull, valueSum] using h

/-- C2: one RoundWithBound(b, n) filter step. When the truncating quotient
of the duration by the unit length is zero or exceeds n, nothing is pushed
and the duration accumulator is exactly unchanged; when the quotient is
positive and at most n, Value(b, quotient) is pushed and quotient times the
unit length is subtracted; and every Value entry of the resulting collection
is either an entry that was already present or has count at most n. -/
theorem roundWithBound_step (dt against : LocalDateTime) (d : Int)
    (acc : List ApproximateState) (b : TimeBoundary) (n : Int) :
    ((d.tdiv b.unitLength = 0 ∨ n < d.tdiv b.unitLength) →
      filterStep dt against (d, acc) (.RoundWithBound b n) = (d, acc))
    ∧ ((0 < d.tdiv b.unitLength ∧ d.tdiv b.unitLength ≤ n) →
      filterStep dt against (d, acc) (.RoundWithBound b n)
        = (d - d.tdiv b.unitLength * b.unitLength,
           acc ++ [.Value b (d.tdiv b.unitLength)]))
    ∧ (∀ b' c, .Value b' c ∈ (filterStep dt against (d, acc) (.RoundWithBound b n)).2 →
        .Value b' c ∈ acc ∨ (b' = b ∧ 0 < c ∧ c ≤ n)) := by
  have hstep : filterStep dt against (d, acc) (.RoundWithBound b n) =
      if 0 < d.tdiv b.unitLength ∧ d.tdiv b.unitLength ≤ n then
        (d - d.tdiv b.unitLength * b.unitLength,
         acc ++ [.Value b (d.tdiv b.unitLength)])
      else (d, acc) := by
    by_cases h : 0 < d.tdiv b.unitLength ∧ d.tdiv b.unitLength ≤ n <;>
      simp [filterStep, matchRelative_some, h]
  refine ⟨?_, ?_, ?_⟩
  · intro h
    rw [hstep]
    rcases h with h | h <;> rw [if_neg] <;> omega
  · intro h
    rw [hstep, if_pos h]
  · intro b' c hmem
    rw [hstep] at hmem
    split at hmem
    · rename_i hq
      rcases List.mem_append.1 hmem with hin | hin
      · exact Or.inl hin
      · simp only [List.mem_singleton] at hin
        cases hin
        exact Or.inr ⟨rfl, hq.1, hq.2⟩
    · exact Or.inl hmem

/-- C4: the Relative filter step pushes InPast(b) where b is true exactly
when the signed difference compared minus original is strictly positive;
the pushed value does not depend on the duration accumulator or the
collection, and a Relative filter inside any filter list acts on whatever
the preceding filters produced by appending exactly that token. -/
theorem relative_filter_sign_only (dt against : LocalDateTime) (d : Int)
    (acc : List ApproximateState) (fs1 fs2 : List ApproximateFilter)
    (init : Int × List ApproximateState) :
    (filterStep dt against (d, acc) .Relative
      = (d, acc ++ [.InPast (decide (0 < against.toSeconds - dt.toSeconds))]))
    ∧ (∀ b : Bool, filterStep dt against (d, acc) .Relative = (d, acc ++ [.InPast b]) →
        (b = true ↔ 0 < against.toSeconds - dt.toSeconds))
    ∧ (runFilters dt against (fs1 ++ .Relative :: fs2) init
      = runFilters dt against fs2
          ((runFilters dt against fs1 init).1,
           (runFilters dt against fs1 init).2
             ++ [.InPast (decide (0 < against.toSeconds - dt.toSeconds))])) := by
  refine ⟨rfl, ?_, ?_⟩
  · intro b h
    have h2 : acc ++ [ApproximateState.InPast (decide (0 < against.toSeconds - dt.toSeconds))]
        = acc ++ [ApproximateState.InPast b] := congrArg Prod.snd h
    have h3 := List.append_cancel_left h2
    have h4 : (decide (0 < against.toSeconds - dt.toSeconds)) = b := by
      simpa using h3
    subst h4
    simp
  · unfold runFilters
    rw [List.foldl_append]
    obtain ⟨d1, a1⟩ := List.foldl (filterStep dt against) init fs1
    rfl

/-- C8: Translator::format with the default English table resolves known
placeholders through the table, resolves an unknown placeholder word to the
empty string without error, unescapes a doubled percent to a literal
percent, and fails on a dangling percent and on an unclosed brace at end of
input. -/
theorem translator_format_examples :
    Translator.format defaultTranslation "%\x7byesterday\x7d %\x7bat\x7d %\x7bnoon\x7d"
        = .ok "Yesterday at Noon"
    ∧ Translator.format defaultTranslation "%\x7bpoop\x7d" = .ok ""
    ∧ Translator.format defaultTranslation "%%" = .ok "%"
    ∧ Translator.format defaultTranslation "%"
        = .error "Invalid format (incomplete match)"
    ∧ Translator.format defaultTranslation "%\x7b"
        = .error "Invalid format (unclosed brace)" :=
  ⟨rfl, rfl, rfl, rfl, rfl⟩

theorem formatLoop_echo (map : Words → Option String) (cs : List Char)
    (s cap : String) (h : '%' ∉ cs) :
    formatLoop map cs false false s cap = .ok ⟨s.data ++ cs⟩ := by
  induction cs generalizing s cap with
  | nil => simp [formatLoop]
  | cons c rest ih =>
    have hc : c ≠ '%' := fun hc => h (hc ▸ List.mem_cons_self c rest)
    have hrest : '%' ∉ rest := fun hr => h (List.mem_cons_of_mem c hr)
    by_cases hl : c = lbrace
    · subst hl
      show formatLoop map rest false false (String.push s lbrace) cap = _
      rw [ih (String.push s lbrace) cap hrest]
      simp [String.push]
    · by_cases hr : c = rbrace
      · subst hr
        show formatLoop map rest false false (String.push s rbrace) cap = _
        rw [ih (String.push s rbrace) cap hrest]
        simp [String.push]
      · show formatLoop map (c :: rest) false false s cap = _
        rw [formatLoop]
        rw [if_neg hc, if_neg hl, if_neg hr, if_neg (by simp)]
        rw [ih (String.push s c) cap hrest]
        simp [String.push]

/-- C9: on an input containing no percent character (hence no placeholder),
Translator::format echoes the input verbatim under any translation table,
and is therefore idempotent there: feeding the output back through format
returns the same result. -/
theorem translator_format_echo_idempotent (map : Words → Option String)
    (s : String) (h : '%' ∉ s.data) :
    Translator.format map s = .ok s
    ∧ Except.bind (Translator.format map s) (Translator.format map)
        = Translator.format map s := by
  have h1 : Translator.format map s = .ok s := by
    unfold Translator.format
    rw [formatLoop_echo map s.data "" "" h]
    rfl
  exact ⟨h1, by rw [h1]; exact h1⟩

/-- Witness for C9 at a concrete percent-free input. -/
theorem translator_format_echo_idempotent_witness :
    Translator.format defaultTranslation "hello world" = .ok "hello world"
    ∧ Except.bind (Translator.format defaultTranslation "hello world")
        (Translator.format defaultTranslation)
        = Translator.format defaultTranslation "hello world" :=
  translator_format_echo_idempotent defaultTranslation "hello world" (by decide)

/-- C10: for every translation table, a template consisting of the empty
placeholder succeeds: the empty capture fails to parse as a word and
contributes nothing, so the result is ok with the empty string. -/
theorem translator_format_empty_placeholder (map : Words → Option String) :
    Translator.format map "%\x7b\x7d" = .ok "" := by
  rfl

/-- C5: the full coarse pipeline on original 1978-04-06 06:00 and compared
2024-01-07 06:00 with filters Relative, ApproximateTime, Round(Year),
Round(Month), Round(Day) yields exactly the template of Example 1. -/
theorem example_one_coarse_template :
    coarseRender (difference
        [.Relative, .ApproximateTime, .Round .Year, .Round .Month, .Round .Day]
        ⟨⟨1978, 4, 6⟩, ⟨6, 0, 0⟩⟩ ⟨⟨2024, 1, 7⟩, ⟨6, 0, 0⟩⟩)
      = "45 %\x7byears\x7d, 9 %\x7bmonths\x7d %\x7band\x7d 17 %\x7bdays\x7d %\x7bago\x7d" := by
  rfl

/-- TimeBoundary::within from src/src/time_boundary.rs: each unit's window
over the absolute duration, phrased through the chrono num_seconds,
num_minutes, num_hours, num_days and num_weeks accessors (truncating
division of total seconds). -/
def TimeBoundary.within (b : TimeBoundary) (dt dt2 : LocalDateTime) : Bool :=
  let abs := absoluteDuration dt dt2
  match b with
  | .Second => decide (abs < 60)
  | .Minute => decide (1 < abs.tdiv 60 ∧ abs.tdiv 3600 = 0)
  | .Hour => decide (1 < abs.tdiv 3600 ∧ abs.tdiv 86400 = 0)
  | .Day => decide (1 < abs.tdiv 86400 ∧ abs.tdiv 86400 < 30)
  | .Week => decide (1 < abs.tdiv 604800 ∧ abs.tdiv 86400 < 30)
  | .Month => decide (30 < abs.tdiv 86400 ∧ abs.tdiv 86400 < 365)
  | .Year => decide (365 < abs.tdiv 86400)

/-- C7 counterexample: at 100000 seconds apart the claimed Day window
86400 < duration < month-length holds but within(Day) is false, and at 15
days apart within(Week) is true although the claimed Week window requires
duration mod week-length below day-length, which fails there. -/
theorem within_windows_counterexample :
    (TimeBoundary.within .Day ⟨⟨2024, 1, 1⟩, ⟨0, 0, 0⟩⟩ ⟨⟨2024, 1, 2⟩, ⟨3, 46, 40⟩⟩ = false
      ∧ 86400 < absoluteDuration ⟨⟨2024, 1, 1⟩, ⟨0, 0, 0⟩⟩ ⟨⟨2024, 1, 2⟩, ⟨3, 46, 40⟩⟩
      ∧ absoluteDuration ⟨⟨2024, 1, 1⟩, ⟨0, 0, 0⟩⟩ ⟨⟨2024, 1, 2⟩, ⟨3, 46, 40⟩⟩ < 2592000)
    ∧ (TimeBoundary.within .Week ⟨⟨2024, 1, 1⟩, ⟨0, 0, 0⟩⟩ ⟨⟨2024, 1, 16⟩, ⟨0, 0, 0⟩⟩ = true
      ∧ 604800 < absoluteDuration ⟨⟨2024, 1, 1⟩, ⟨0, 0, 0⟩⟩ ⟨⟨2024, 1, 16⟩, ⟨0, 0, 0⟩⟩
      ∧ ¬((absoluteDuration ⟨⟨2024, 1, 1⟩, ⟨0, 0, 0⟩⟩
            ⟨⟨2024, 1, 16⟩, ⟨0, 0, 0⟩⟩).emod 604800 < 86400)) := by
  decide

/-- C7 amended: the Day predicate holds exactly when the absolute duration
is at least two days and under thirty days, and the Week predicate holds
exactly when it is at least two weeks and under thirty days (the code
tests num_days greater than 1, num_weeks greater than 1 and num_days less
than 30; there is no modulo window). -/
theorem within_day_week_windows (dt dt2 : LocalDateTime) :
    (TimeBoundary.within .Day dt dt2 = true ↔
      172800 ≤ absoluteDuration dt dt2 ∧ absoluteDuration dt dt2 < 2592000)
    ∧ (TimeBoundary.within .Week dt dt2 = true ↔
      1209600 ≤ absoluteDuration dt dt2 ∧ absoluteDuration dt dt2 < 2592000) := by
  have ha : 0 ≤ absoluteDuration dt dt2 := abs_nonneg _
  have htd : ∀ k : Nat, (absoluteDuration dt dt2).tdiv (Int.ofNat k)
      = absoluteDuration dt dt2 / (Int.ofNat k) := by
    intro k
    obtain ⟨m, hm⟩ := Int.eq_ofNat_of_zero_le ha
    rw [hm]
    show Int.ofNat (m / k) = _
    simp [Int.ofNat_eq_natCast, Int.ofNat_tdiv]
  have h86 : (absoluteDuration dt dt2).tdiv 86400
      = absoluteDuration dt dt2 / 86400 := htd 86400
  have h604 : (absoluteDuration dt dt2).tdiv 604800
      = absoluteDuration dt dt2 / 604800 := htd 604800
  refine ⟨?_, ?_⟩ <;>
    simp only [TimeBoundary.within, decide_eq_true_eq, h86, h604] <;>
    omega

/-- Specification-shaped restatement of the TopRounds scan for the
refinement proof of C3: walk the unit list coarsest first, take each unit
whose truncating quotient is positive (consuming it from the duration)
until n units have been taken; units with zero quotient are passed over
without consuming the budget. -/
def topRoundsSpec : Nat → List TimeBoundary → Int → List (TimeBoundary × Int)
  | _, [], _ => []
  | n, b :: rest, d =>
    if n = 0 then []
    else
      let q := d.tdiv b.unitLength
      if 0 < q then (b, q) :: topRoundsSpec (n - 1) rest (d - q * b.unitLength)
      else topRoundsSpec n rest d

theorem topRoundsSpec_length (units : List TimeBoundary) (n : Nat) (d : Int) :
    (topRoundsSpec n units d).length ≤ n := by
  induction units generalizing n d with
  | nil => simp [topRoundsSpec]
  | cons b rest ih =>
    by_cases hn : n = 0
    · simp [topRoundsSpec, hn]
    · by_cases hq : 0 < d.tdiv b.unitLength
      · simp only [topRoundsSpec, if_neg hn, if_pos hq, List.length_cons]
        have := ih (n - 1) (d - d.tdiv b.unitLength * b.unitLength)
        omega
      · simp only [topRoundsSpec, if_neg hn, if_neg hq]
        exact ih n d

theorem topRoundsSpec_sublist (units : List TimeBoundary) (n : Nat) (d : Int) :
    List.Sublist ((topRoundsSpec n units d).map Prod.fst) units := by
  induction units generalizing n d with
  | nil => simp [topRoundsSpec]
  | cons b rest ih =>
    by_cases hn : n = 0
    · simp [topRoundsSpec, hn]
    · by_cases hq : 0 < d.tdiv b.unitLength
      · simp only [topRoundsSpec, if_neg hn, if_pos hq, List.map_cons]
        exact List.Sublist.cons₂ b (ih (n - 1) (d - d.tdiv b.unitLength * b.unitLength))
      · simp only [topRoundsSpec, if_neg hn, if_neg hq]
        exact List.Sublist.cons b (ih n d)

theorem topRoundsSpec_pos (units : List TimeBoundary) (n : Nat) (d : Int) :
    ∀ p ∈ topRoundsSpec n units d, 0 < p.2 := by
  induction units generalizing n d with
  | nil => simp [topRoundsSpec]
  | cons b rest ih =>
    by_cases hn : n = 0
    · simp [topRoundsSpec, hn]
    · by_cases hq : 0 < d.tdiv b.unitLength
      · simp only [topRoundsSpec, if_neg hn, if_pos hq]
        intro p hp
        rcases List.mem_cons.1 hp with h | h
        · subst h; exact hq
        · exact ih (n - 1) (d - d.tdiv b.unitLength * b.unitLength) p h
      · simp only [topRoundsSpec, if_neg hn, if_neg hq]
        exact ih n d

theorem topRoundsLoop_eq_spec (n : Nat) (units : List TimeBoundary)
    (added : Nat) (d : Int) (acc : List ApproximateState) :
    (topRoundsLoop n units added d acc).2
      = acc ++ (topRoundsSpec (n - added) units d).map
          (fun p => ApproximateState.Value p.1 p.2) := by
  induction units generalizing added d acc with
  | nil => simp [topRoundsLoop, topRoundsSpec]
  | cons b rest ih =>
    by_cases hend : n ≤ added
    · have hz : n - added = 0 := by omega
      simp [topRoundsLoop, topRoundsSpec, hend, hz]
    · have hnz : ¬(n - added = 0) := by omega
      by_cases hq : 0 < d.tdiv b.unitLength
      · have hloop : topRoundsLoop n (b :: rest) added d acc
            = topRoundsLoop n rest (added + 1)
                (d - d.tdiv b.unitLength * b.unitLength)
                (acc ++ [.Value b (d.tdiv b.unitLength)]) := by
          simp only [topRoundsLoop, if_neg hend, matchRelative_none, if_pos hq]
        rw [hloop, ih]
        have hsub : n - (added + 1) = n - added - 1 := by omega
        simp only [topRoundsSpec, if_neg hnz, if_pos hq, List.map_cons, hsub]
        simp
      · have hloop : topRoundsLoop n (b :: rest) added d acc
            = topRoundsLoop n rest added d acc := by
          simp only [topRoundsLoop, if_neg hend, matchRelative_none, if_neg hq]
        rw [hloop, ih]
        simp only [topRoundsSpec, if_neg hnz, if_neg hq]

/-- C3: one TopRounds(n) filter step appends exactly the entries of the
coarsest-first scan topRoundsSpec; that scan yields at most n entries,
their units form a subsequence of the coarsest-first unit order, every
emitted count is positive, and a unit with zero quotient is passed over
without consuming the budget while scanning continues to finer units
(definitional in the specification function's zero branch). -/
theorem topRounds_step_bounded_ordered (dt against : LocalDateTime) (d : Int)
    (acc : List ApproximateState) (n : Nat) :
    ((filterStep dt against (d, acc) (.TopRounds n)).2
        = acc ++ (topRoundsSpec n TimeBoundary.all d).map
            (fun p => ApproximateState.Value p.1 p.2))
    ∧ (topRoundsSpec n TimeBoundary.all d).length ≤ n
    ∧ List.Sublist ((topRoundsSpec n TimeBoundary.all d).map Prod.fst) TimeBoundary.all
    ∧ (∀ p ∈ topRoundsSpec n TimeBoundary.all d, 0 < p.2) := by
  refine ⟨?_, topRoundsSpec_length _ n d, topRoundsSpec_sublist _ n d,
    topRoundsSpec_pos _ n d⟩
  have h := topRoundsLoop_eq_spec n TimeBoundary.all 0 d acc
  simpa using h

/-- Flush the pending item buffer into the output, as the Value arm of the
CoarseRoundFormat::format loop does. -/
def flushPending (s last : String) : String :=
  if last ≠ "" then s ++ last else s

/-- The item strings the CoarseRoundFormat::format loop produces, indexed
by buffer position, for the refinement proof of C6. -/
def coarseItems (len : Nat) : Nat → List ApproximateState → List String
  | _, [] => []
  | x, .Value relative time :: rest =>
    coarseItem len x relative time :: coarseItems len (x + 1) rest
  | x, _ :: rest => coarseItems len (x + 1) rest

/-- The last InPast value of the buffer, as tracked by the loop. -/
def lastInPast : List ApproximateState → Option Bool → Option Bool
  | [], inPast => inPast
  | .InPast past :: rest, _ => lastInPast rest (some past)
  | _ :: rest, inPast => lastInPast rest inPast

/-- The output and pending buffers after feeding a list of items through
the flush discipline of the loop. -/
def assembleItems : String → String → List String → String × String
  | s, last, [] => (s, last)
  | s, last, i :: rest => assembleItems (flushPending s last) i rest

/-- The post-loop flush of CoarseRoundFormat::format, acting on the final
output and pending buffers. -/
def endAssemble (p : String × String) : String :=
  if p.2 ≠ "" then
    if p.1 = "" then p.1 ++ rustTrim p.2
    else p.1 ++ ("%\x7band\x7d " ++ rustTrim p.2)
  else p.1

/-- Everything after the first item of a multi-item list: plain items, and
the final one trimmed and prefixed with the and-word. -/
def coarseTail : List String → String
  | [] => ""
  | [j] => "%\x7band\x7d " ++ rustTrim j
  | j :: rest => j ++ coarseTail rest

/-- Specification-shaped body of the coarse rendering for the refinement
proof of C6: no item renders empty, a single item renders trimmed, and two
or more items render as the first item followed by the remaining items with
the final one and-prefixed and trimmed. -/
def coarseBody : List String → String
  | [] => ""
  | [i] => rustTrim i
  | i :: rest => i ++ coarseTail rest

/-- Specification-shaped restatement of CoarseRoundFormat::format for the
refinement proof of C6: the item list in buffer order (commas assigned by
buffer position through coarseItem), assembled by coarseBody, then the
past or future suffix after the last InPast entry. -/
def coarseSpec (formats : List ApproximateState) : String :=
  let s := coarseBody (coarseItems formats.length 0 formats)
  match lastInPast formats none with
  | some true => s ++ " %\x7bago\x7d"
  | some false => s ++ " %\x7bfrom now\x7d"
  | none => s

theorem coarseLoop_eq_assemble (len : Nat) (l : List ApproximateState)
    (x : Nat) (inPast : Option Bool) (s last : String) :
    coarseLoop len l x inPast s last
      = (lastInPast l inPast, assembleItems s last (coarseItems len x l)) := by
  induction l generalizing x inPast s last with
  | nil => rfl
  | cons st rest ih =>
    cases st <;>
      simp [coarseLoop, coarseItems, lastInPast, assembleItems, flushPending, ih]

theorem append_ne_empty_right (s t : String) (h : t ≠ "") : s ++ t ≠ "" := by
  intro heq
  apply h
  have hd : s.data ++ t.data = ([] : List Char) := by
    have := congrArg String.data heq
    simpa [String.data_append] using this
  have : t.data = [] := (List.append_eq_nil.1 hd).2
  cases t
  simp_all

theorem coarseItem_ne_empty (len x : Nat) (relative : TimeBoundary) (time : Int) :
    coarseItem len x relative time ≠ "" := by
  have hgen : ∀ w : Words,
      (if 2 ≤ len ∧ x < len - 2 then
        toString time ++ " %\x7b" ++ w.display ++ "\x7d, "
      else toString time ++ " %\x7b" ++ w.display ++ "\x7d ") ≠ "" := by
    intro w
    split <;> exact append_ne_empty_right _ _ (by decide)
  unfold coarseItem
  exact hgen _

theorem coarseItems_ne_empty (len : Nat) (l : List ApproximateState) (x : Nat) :
    ∀ i ∈ coarseItems len x l, i ≠ "" := by
  induction l generalizing x with
  | nil => simp [coarseItems]
  | cons st rest ih =>
    cases st <;> simp only [coarseItems] <;> try exact ih _
    intro i hi
    rcases List.mem_cons.1 hi with h | h
    · subst h; exact coarseItem_ne_empty _ _ _ _
    · exact ih _ i h

theorem assembleItems_multi (rest : List String) (j : String) (s last : String)
    (hlast : last ≠ "") (hj : j ≠ "") (hrest : ∀ i ∈ rest, i ≠ "") :
    endAssemble (assembleItems s last (j :: rest))
      = s ++ (last ++ coarseTail (j :: rest)) := by
  induction rest generalizing s last j with
  | nil =>
    show endAssemble (assembleItems (flushPending s last) j []) = _
    rw [show flushPending s last = s ++ last from if_pos hlast]
    show endAssemble (s ++ last, j) = _
    unfold endAssemble
    simp only
    rw [if_pos hj, if_neg (append_ne_empty_right s last hlast)]
    rw [String.append_assoc]
    rfl
  | cons k ks ih =>
    show endAssemble (assembleItems (flushPending s last) j (k :: ks)) = _
    rw [show flushPending s last = s ++ last from if_pos hlast]
    rw [ih k (s ++ last) j hj (hrest k (List.mem_cons_self k ks))
      (fun i hi => hrest i (List.mem_cons_of_mem k hi))]
    rw [show coarseTail (j :: k :: ks) = j ++ coarseTail (k :: ks) from rfl]
    rw [String.append_assoc]

theorem endAssemble_items (items : List String) (h : ∀ i ∈ items, i ≠ "") :
    endAssemble (assembleItems "" "" items) = coarseBody items := by
  match items with
  | [] => rfl
  | [i] =>
    show endAssemble (assembleItems (flushPending "" "") i []) = _
    rw [show flushPending "" "" = "" from rfl]
    show endAssemble ("", i) = _
    have hi : i ≠ "" := h i (List.mem_cons_self i [])
    simp [endAssemble, hi, coarseBody, String.empty_append]
  | i :: j :: rest =>
    show endAssemble (assembleItems (flushPending "" "") i (j :: rest)) = _
    rw [show flushPending "" "" = "" from rfl]
    rw [assembleItems_multi rest j "" i (h i (by simp)) (h j (by simp))
      (fun k hk => h k (by simp [hk]))]
    rw [String.empty_append]
    rfl

/-- C6 amended: CoarseRoundFormat::format renders each Value as count,
space and the percent-braced unit word (pluralized when the count exceeds
one), assigns a trailing comma to the item at buffer position x exactly
when the retained buffer has at least two entries and x is below the buffer
length minus two (so the penultimate item carries no comma when the Values
close the buffer), prefixes the final item of a multi-item list with the
and-word, and appends the suffix of the last InPast entry. -/
theorem coarse_format_characterization (formats : List ApproximateState) :
    coarseFormat formats = coarseSpec formats := by
  have hloop := coarseLoop_eq_assemble formats.length formats 0 none "" ""
  have hbody := endAssemble_items (coarseItems formats.length 0 formats)
    (coarseItems_ne_empty formats.length formats 0)
  unfold coarseFormat coarseSpec
  rw [hloop]
  simp only
  rw [show (∀ p : String × String,
      (if p.2 ≠ "" then if p.1 = "" then p.1 ++ rustTrim p.2
        else p.1 ++ ("%\x7band\x7d " ++ rustTrim p.2) else p.1) = endAssemble p)
    from fun p => rfl]
  rw [hbody]

/-- C6 counterexample: for the ingested buffer with the three Values
1 year, 2 months, 3 days, the rendered string is not the Oxford-comma
shape the claim predicts (the penultimate item has no trailing comma). -/
theorem coarse_format_oxford_counterexample :
    coarseFormat [.Value .Year 1, .Value .Month 2, .Value .Day 3]
        = "1 %\x7byear\x7d, 2 %\x7bmonths\x7d %\x7band\x7d 3 %\x7bdays\x7d"
    ∧ coarseFormat [.Value .Year 1, .Value .Month 2, .Value .Day 3]
        ≠ "1 %\x7byear\x7d, 2 %\x7bmonths\x7d, %\x7band\x7d 3 %\x7bdays\x7d" :=
  ⟨rfl, by decide⟩

end SpeakableTime
